import Mathlib

/-!
Verification of the EDGAR filing cleaner/extractor (src/src/parsing.py).

Text is embedded as `List Char`.  Each Python `re.sub` call is embedded as a
structurally recursive left-to-right scan that mirrors the regex engine's
leftmost, non-overlapping match semantics (greedy or non-greedy as the
source pattern demands).  The regex objects imported from the module
`parsing_patterns` (PAT_MU1, PAT_MU2, PAT_TAB1, PAT_TAB2, PAT_TOC1,
PAT_TOC2 and the section patterns) are not part of the repository snapshot
under src/, so they are modelled from the spec where a concrete definition
is needed, and the section patterns are abstracted by their finditer match
lists.  Python floats on the small integer counts involved are modelled by
exact rationals.
-/

/-- Python whitespace (`str.isspace` / `\s` on `str` patterns): ASCII
whitespace, the C1 separators, NEL, NBSP and the Unicode space chars. -/
def pyIsSpace (c : Char) : Bool :=
  c ∈ [' ', '\t', '\n', '\r', '\x0b', '\x0c', '\x1c', '\x1d', '\x1e', '\x1f',
       '\x85', '\xa0', '\u1680', '\u2000', '\u2001', '\u2002', '\u2003',
       '\u2004', '\u2005', '\u2006', '\u2007', '\u2008', '\u2009', '\u200a',
       '\u2028', '\u2029', '\u202f', '\u205f', '\u3000']

/-- ASCII letter, the class `[A-Za-z]` of the source's letter-count regex. -/
def isLetterAZ (c : Char) : Bool :=
  ('A' ≤ c && c ≤ 'Z') || ('a' ≤ c && c ≤ 'z')

/-- ASCII digit, the class `[0-9]` of the source's digit-count regex. -/
def isDigit09 (c : Char) : Bool :=
  '0' ≤ c && c ≤ '9'

/-- `re.sub('[^A-Za-z]|nbsp', '', s)` from `tab_replace` (parsing.py line
39): the scan deletes every non-letter character, and at a letter position
it first checks the literal alternative `nbsp` and deletes those four
characters when they are present (the first alternative cannot fire on the
letter `n`). -/
def cSub : List Char → List Char
  | 'n' :: 'b' :: 's' :: 'p' :: r => cSub r
  | c :: r => if isLetterAZ c then c :: cSub r else cSub r
  | [] => []

/-- `re.sub('[^0-9]|nbsp', '', s)` from `tab_replace` (parsing.py line 40):
every character of the literal `nbsp` is already a non-digit, so the second
alternative never fires and the scan keeps exactly the digits. -/
def dSub (l : List Char) : List Char :=
  l.filter isDigit09

/-- Modelled from the spec: PAT_MU2, the second-pass multi-unwrap rule of
the pattern library ("collapses any remaining inline markup tags into
newlines"), is not under src/.  Modelled as the tag-shaped pattern
`<[^>]*>` replaced by a newline; the scan buffers from an unmatched `<`
and flushes the buffer verbatim when the input ends without a `>`. -/
def muGo : Option (List Char) → List Char → List Char
  | none, [] => []
  | some buf, [] => buf.reverse
  | none, c :: r => if c = '<' then muGo (some [c]) r else c :: muGo none r
  | some buf, c :: r =>
      if c = '>' then '\n' :: muGo none r else muGo (some (c :: buf)) r

/-- One application of the modelled PAT_MU2 rule. -/
def muSub (l : List Char) : List Char := muGo none l

/-- Modelled from the spec: the paragraph-break rule of PAT_MU1 (the
ordered markup-unwrap rules are not under src/); replaces the paragraph
tags with a newline. -/
def pSub : List Char → List Char
  | '<' :: 'p' :: '>' :: r => '\n' :: pSub r
  | '<' :: '/' :: 'p' :: '>' :: r => '\n' :: pSub r
  | c :: r => c :: pSub r
  | [] => []

/-- Modelled from the spec: the line-break rule of PAT_MU1. -/
def brSub : List Char → List Char
  | '<' :: 'b' :: 'r' :: '>' :: r => '\n' :: brSub r
  | '<' :: 'b' :: 'r' :: '/' :: '>' :: r => '\n' :: brSub r
  | c :: r => c :: brSub r
  | [] => []

/-- Modelled from the spec: the div/block-boundary rule of PAT_MU1. -/
def divSub : List Char → List Char
  | '<' :: 'd' :: 'i' :: 'v' :: '>' :: r => '\n' :: divSub r
  | '<' :: '/' :: 'd' :: 'i' :: 'v' :: '>' :: r => '\n' :: divSub r
  | c :: r => c :: divSub r
  | [] => []

/-- `for v in PAT_MU1.values(): txt = v.sub('\n', txt)` (parsing.py lines
54-55): the modelled unwrap rules applied in their declared order. -/
def mu1Sub (l : List Char) : List Char := divSub (brSub (pSub l))

/-- Modelled from the Python standard library `html.unescape` used at
parsing.py line 56 (external to the repository): character entities are
decoded once, left to right, without rescanning the produced character;
restricted here to a finite table of common entities. -/
def unescape : List Char → List Char
  | '&' :: 'a' :: 'm' :: 'p' :: ';' :: r => '&' :: unescape r
  | '&' :: 'l' :: 't' :: ';' :: r => '<' :: unescape r
  | '&' :: 'g' :: 't' :: ';' :: r => '>' :: unescape r
  | '&' :: 'n' :: 'b' :: 's' :: 'p' :: ';' :: r => '\xa0' :: unescape r
  | c :: r => c :: unescape r
  | [] => []

/-- The `[TABLE]` begin marker written by `tab_replace`. -/
def tabOpenMark : List Char := ['[', 'T', 'A', 'B', 'L', 'E', ']']

/-- The `[/TABLE]` end marker written by `tab_replace`. -/
def tabCloseMark : List Char := ['[', '/', 'T', 'A', 'B', 'L', 'E', ']']

/-- The retained-table result `f'[TABLE]{match.group(0)}[/TABLE]'` of
`tab_replace` (parsing.py line 45). -/
def tabWrap (s : List Char) : List Char :=
  tabOpenMark ++ s ++ tabCloseMark

/-- The comparison `num_ratio < tab_ratio` of parsing.py line 44 as an
exact rational inequality (the Python float arithmetic is exact enough on
these small counts). -/
def densityLt (d c : Nat) : Prop :=
  (d : ℚ) / ((c : ℚ) + (d : ℚ)) < 1 / 10

/-- The variable `c` of `tab_replace` (parsing.py line 39): length after
the letter-keeping substitution, computed on the collapsed span. -/
def cCount (s : List Char) : Nat := (cSub (muSub s)).length

/-- The variable `d` of `tab_replace` (parsing.py line 40): length after
the digit-keeping substitution, computed on the collapsed span. -/
def dCount (s : List Char) : Nat := (dSub (muSub s)).length

/-- The `try` block of `tab_replace` (parsing.py lines 42-47): `none` when
`d / (c + d)` raises `ZeroDivisionError` (the denominator is zero),
otherwise the retained-or-dropped result.  The guard is the executable
form of the float comparison `num_ratio < 0.1`; `densityLt_iff` proves it
agrees with the exact ratio comparison whenever the denominator is
nonzero, which the first branch guarantees. -/
def tabTry (s : List Char) : Option (List Char) :=
  if cCount s + dCount s = 0 then none
  else if 10 * dCount s < cCount s + dCount s then some (tabWrap s)
  else some []

/-- `tab_replace` (parsing.py lines 35-50): the `except` branch catches the
zero-denominator failure and returns the empty string. -/
def tab_replace (s : List Char) : List Char :=
  (tabTry s).getD []

/-- Modelled from the spec: PAT_TAB1, the table-boundary pattern
(`<table ... </table>`, non-greedy, spanning lines), is not under src/.
The scan substitutes `tab_replace` of each matched span (parsing.py line
57); an opening without any closing token is left verbatim. -/
def tab1Go : Option (List Char) → List Char → List Char
  | none, [] => []
  | some buf, [] => '<' :: 't' :: 'a' :: 'b' :: 'l' :: 'e' :: buf.reverse
  | some buf, '<' :: '/' :: 't' :: 'a' :: 'b' :: 'l' :: 'e' :: '>' :: r =>
      tab_replace ('<' :: 't' :: 'a' :: 'b' :: 'l' :: 'e' ::
        (buf.reverse ++ ['<', '/', 't', 'a', 'b', 'l', 'e', '>'])) ++ tab1Go none r
  | none, '<' :: 't' :: 'a' :: 'b' :: 'l' :: 'e' :: r => tab1Go (some []) r
  | some buf, c :: r => tab1Go (some (c :: buf)) r
  | none, c :: r => c :: tab1Go none r

/-- `txt = PAT_TAB1.sub(tab_replace, txt)` (parsing.py line 57). -/
def tab1Sub (l : List Char) : List Char := tab1Go none l

/-- The NBSP/zero-width-space replacement `re.sub` of parsing.py line 59:
a single-character alternation, so the substitution is a character map. -/
def nbspSub (l : List Char) : List Char :=
  l.map fun c => if c = '\xa0' || c = '\u200b' then '\n' else c

/-- Python `str.strip()`: leading and trailing whitespace removed. -/
def pyStrip (l : List Char) : List Char :=
  ((l.dropWhile pyIsSpace).reverse.dropWhile pyIsSpace).reverse

/-- `re.sub(r'(\n\s*){3,}', '\n\n', txt)` (parsing.py line 60).  A match
starts at a newline and greedily covers the whitespace run from there; it
exists exactly when that run contains at least three newlines, and is
replaced by one blank line.  The scan buffers the run and counts its
newlines. -/
def collapseGo : Option (List Char × Nat) → List Char → List Char
  | none, [] => []
  | some (buf, n), [] => if 3 ≤ n then ['\n', '\n'] else buf.reverse
  | none, c :: r =>
      if c = '\n' then collapseGo (some ([c], 1)) r else c :: collapseGo none r
  | some (buf, n), c :: r =>
      if c = '\n' then collapseGo (some (c :: buf, n + 1)) r
      else if pyIsSpace c then collapseGo (some (c :: buf, n)) r
      else (if 3 ≤ n then ['\n', '\n'] else buf.reverse) ++ c :: collapseGo none r

/-- One application of the blank-run collapse of parsing.py line 60. -/
def collapseBlank (l : List Char) : List Char := collapseGo none l

/-- `clean_filing_text` (parsing.py lines 52-61): unwrap rules, entity
decoding, conditional table retention, second-pass unwrap, NBSP/ZWSP
replacement with strip, and blank-run collapse with strip. -/
def clean_filing_text (l : List Char) : List Char :=
  pyStrip (collapseBlank (pyStrip (nbspSub (muSub (tab1Sub (unescape (mu1Sub l)))))))

/-- Modelled from the spec: PAT_TAB2, the table-stripping pattern applied
before section search, is not under src/.  Modelled on the retained-table
markers `[TABLE] ... [/TABLE]`; matched spans are removed, an unclosed
opening is left verbatim. -/
def tab2Go : Option (List Char) → List Char → List Char
  | none, [] => []
  | some buf, [] => '[' :: 'T' :: 'A' :: 'B' :: 'L' :: 'E' :: ']' :: buf.reverse
  | some _, '[' :: '/' :: 'T' :: 'A' :: 'B' :: 'L' :: 'E' :: ']' :: r =>
      tab2Go none r
  | none, '[' :: 'T' :: 'A' :: 'B' :: 'L' :: 'E' :: ']' :: r => tab2Go (some []) r
  | some buf, c :: r => tab2Go (some (c :: buf)) r
  | none, c :: r => c :: tab2Go none r

/-- `txt = PAT_TAB2.sub('', txt)` (parsing.py lines 66 and 89). -/
def tab2Sub (l : List Char) : List Char := tab2Go none l

/-- Modelled from the spec: PAT_TOC1, the first table-of-contents line
pattern (leader dots followed by a page number), is not under src/;
modelled as a dot leader followed by a digit, replaced by a space
(parsing.py lines 79 and 94). -/
def toc1Go : List Char → List Char
  | '.' :: '.' :: '.' :: c :: r =>
      if isDigit09 c then ' ' :: toc1Go r else '.' :: toc1Go ('.' :: '.' :: c :: r)
  | c :: r => c :: toc1Go r
  | [] => []

/-- One application of the modelled PAT_TOC1 substitution. -/
def toc1Sub (l : List Char) : List Char := toc1Go l

/-- Modelled from the spec: PAT_TOC2, the second table-of-contents line
pattern (a row of leader characters followed by a number), is not under
src/; modelled as a hyphen leader followed by a digit, replaced by a space
(parsing.py lines 80 and 95). -/
def toc2Go : List Char → List Char
  | '-' :: '-' :: '-' :: c :: r =>
      if isDigit09 c then ' ' :: toc2Go r else '-' :: toc2Go ('-' :: '-' :: c :: r)
  | c :: r => c :: toc2Go r
  | [] => []

/-- One application of the modelled PAT_TOC2 substitution. -/
def toc2Sub (l : List Char) : List Char := toc2Go l

/-- A separator-rule character of `re.sub(r'(\_{2,}|\-{2,}|={2,})', ' ', _)`
(parsing.py lines 81 and 96). -/
def isSepChar (c : Char) : Bool :=
  c = '_' || c = '-' || c = '='

/-- Flushing the pending separator run: runs of length at least two become
a single space, a lone separator character is kept. -/
def sepFlush : Option (Char × Nat) → List Char
  | none => []
  | some (c, n) => if 2 ≤ n then [' '] else [c]

/-- The scan of `re.sub(r'(\_{2,}|\-{2,}|={2,})', ' ', _)`: maximal runs of
a single separator character are tracked and flushed. -/
def sepGo : Option (Char × Nat) → List Char → List Char
  | st, [] => sepFlush st
  | st, c :: r =>
      if isSepChar c then
        match st with
        | some (c0, n) =>
            if c = c0 then sepGo (some (c0, n + 1)) r
            else sepFlush (some (c0, n)) ++ sepGo (some (c, 1)) r
        | none => sepGo (some (c, 1)) r
      else sepFlush st ++ c :: sepGo none r

/-- The separator-rule removal of parsing.py lines 81 and 96. -/
def sepSub (l : List Char) : List Char := sepGo none l

/-- The scan of `re.sub(r'(\s{1,})', ' ', _)` (parsing.py lines 82 and
97): each maximal whitespace run becomes a single space. -/
def wsGo : Bool → List Char → List Char
  | _, [] => []
  | false, c :: r => if pyIsSpace c then ' ' :: wsGo true r else c :: wsGo false r
  | true, c :: r => if pyIsSpace c then wsGo true r else c :: wsGo false r

/-- The whitespace collapse of parsing.py lines 82 and 97. -/
def wsCollapse (l : List Char) : List Char := wsGo false l

/-- A punctuation mark of `re.sub(r' (,|;|\.|’|®) ', r'\1 ', _)`
(parsing.py lines 83 and 98). -/
def isPunctMark (c : Char) : Bool :=
  c = ',' || c = ';' || c = '.' || c = '’' || c = '®'

/-- The scan of `re.sub(r' (,|;|\.|’|®) ', r'\1 ', _)` (parsing.py lines
83 and 98): a space-surrounded punctuation mark loses its leading space;
the scan resumes after the consumed trailing space. -/
def punctGo : List Char → List Char
  | ' ' :: c :: ' ' :: r =>
      if isPunctMark c then c :: ' ' :: punctGo r
      else ' ' :: punctGo (c :: ' ' :: r)
  | c :: r => c :: punctGo r
  | [] => []

/-- The scan of `re.sub(r'^(.*?)" -->', '', _)` (parsing.py lines 84 and
99): the non-greedy anchored prefix ends at the first occurrence of the
token `" -->`, and `.` cannot cross a newline, so the match exists exactly
when the token occurs before any newline. -/
def dropToComment : List Char → Option (List Char)
  | '"' :: ' ' :: '-' :: '-' :: '>' :: r => some r
  | '\n' :: _ => none
  | _ :: r => dropToComment r
  | [] => none

/-- The leading-comment-fragment removal of parsing.py lines 84 and 99. -/
def commentStrip (l : List Char) : List Char :=
  (dropToComment l).getD l

/-- The shared post-processing of a selected section candidate
(parsing.py lines 79-84 and 94-99, in source order). -/
def postClean (l : List Char) : List Char :=
  commentStrip (punctGo (wsCollapse (sepSub (toc2Sub (toc1Sub l)))))

/-- Two adjacent characters are not both whitespace: the relation whose
`Chain'` closure states that an excerpt has no internal blank runs. -/
def spacedApart (a b : Char) : Prop :=
  ¬(pyIsSpace a = true ∧ pyIsSpace b = true)

/-- No `<` is followed (anywhere later) by a `>`: equivalently, `<` then
`>` is not a subsequence.  On such text none of the tag-shaped patterns of
the normalizer can match. -/
def noTag (l : List Char) : Prop :=
  ¬ (['<', '>'] : List Char).Sublist l

/-- Checker for the blank-run collapse: scanning with `n` newlines seen in
the current whitespace run, the text contains no whitespace run with three
or more newlines (the trigger of the `(\n\s*){3,}` pattern). -/
def chkRun : Nat → List Char → Bool
  | n, [] => decide (n ≤ 2)
  | n, c :: r =>
      if c = '\n' then (if 2 ≤ n then false else chkRun (n + 1) r)
      else if pyIsSpace c then chkRun n r
      else chkRun 0 r

/-- The body of `if len(match.group(0)) > len(mda): mda = match.group(0)`
(parsing.py lines 70-71): the accumulator is replaced exactly when the new
candidate is strictly longer. -/
def keepLonger (acc m : List Char) : List Char :=
  if acc.length < m.length then m else acc

/-- The candidate-selection loops of `clean_mda_text`/`clean_item1_text`:
a left fold of `keepLonger` starting from the empty string. -/
def selectLongest (l : List (List Char)) : List Char :=
  l.foldl keepLonger []

/-- Modelled from the spec: the section patterns PAT_10K_MDA1, PAT_10K_MDA2
and PAT_10Q_MDA live in `parsing_patterns`, which is not under src/; each
is abstracted by its `finditer` match-group list on the table-stripped
text.  This is the candidate list the selection loops of `clean_mda_text`
traverse, in pattern order then match order (parsing.py lines 68-78). -/
def mdaCands (find1 find2 findQ : List Char → List (List Char))
    (txt : List Char) (form_type : String) : List (List Char) :=
  if form_type = "10-k" then find1 (tab2Sub txt) ++ find2 (tab2Sub txt)
  else if form_type = "10-q" then findQ (tab2Sub txt)
  else []

/-- `clean_mda_text` (parsing.py lines 63-85), parametric in the match
lists of the three section patterns: strip tables, keep the longest match
over the applicable patterns, post-process. -/
def clean_mda_text (find1 find2 findQ : List Char → List (List Char))
    (txt : List Char) (form_type : String) : List Char :=
  postClean (selectLongest (mdaCands find1 find2 findQ txt form_type))

/-- `clean_item1_text` (parsing.py lines 87-100), parametric in the match
list of PAT_ITEM1 (not under src/): strip tables, keep the longest match,
post-process. -/
def clean_item1_text (findI : List Char → List (List Char))
    (txt : List Char) : List Char :=
  postClean (selectLongest (findI (tab2Sub txt)))

/-- The letter-count as the spec's words describe it (spec section 4.2
step 3): exactly the number of alphabetic characters of the collapsed
span. -/
def specLetters (s : List Char) : Nat := ((muSub s).filter isLetterAZ).length

/-- The digit-count as the spec's words describe it: exactly the number of
numeric characters of the collapsed span. -/
def specDigits (s : List Char) : Nat := ((muSub s).filter isDigit09).length

/-- The claim's reading of the table heuristic (spec section 4.2 step 3):
retain exactly when digit-count / (letter-count + digit-count) < 0.1 with
letter-count the number of alphabetic characters, all other characters
ignored; drop on a zero denominator. -/
def tab_replace_spec (s : List Char) : List Char :=
  if specLetters s + specDigits s = 0 then []
  else if 10 * specDigits s < specLetters s + specDigits s then tabWrap s
  else []

/-!
Helper lemmas.
-/

/-- The executable guard of `tabTry` agrees with the exact density
comparison whenever the denominator is nonzero. -/
theorem densityLt_iff {d c : Nat} (h : 0 < c + d) : densityLt d c ↔ 10 * d < c + d := by
  have hcd : (0 : ℚ) < (c : ℚ) + (d : ℚ) := by exact_mod_cast h
  unfold densityLt
  rw [div_lt_div_iff₀ hcd (by norm_num : (0 : ℚ) < 10), one_mul, mul_comm]
  exact_mod_cast Iff.rfl

/-- The letter-keeping scan returns nothing on a list with no ASCII
letters. -/
theorem cSub_eq_nil (l : List Char) (h : ∀ c ∈ l, isLetterAZ c = false) :
    cSub l = [] := by
  induction l using cSub.induct with
  | case1 r ih => exact absurd (h 'n' (by simp)) (by decide)
  | case2 c r hne hl ih => exact absurd (h c (by simp)) (by simp [hl])
  | case3 c r hne hl ih =>
      rw [cSub]
      · simp only [hl, if_false]
        exact ih fun a ha => h a (List.mem_cons_of_mem _ ha)
      · exact hne
  | case4 => rfl

/-- Every character the tag-collapse scan emits is an input character, a
buffered (hence input) character, or the inserted newline. -/
theorem muGo_mem (l : List Char) (st : Option (List Char)) (c : Char)
    (h : c ∈ muGo st l) :
    (∃ buf, st = some buf ∧ c ∈ buf) ∨ c ∈ l ∨ c = '\n' := by
  induction l generalizing st with
  | nil =>
      cases st with
      | none => simp [muGo] at h
      | some buf =>
          simp only [muGo, List.mem_reverse] at h
          exact Or.inl ⟨buf, rfl, h⟩
  | cons x r ih =>
      cases st with
      | none =>
          rw [muGo] at h
          split at h
          · rcases ih _ h with ⟨buf, hbuf, hc⟩ | hc | hc
            · rw [Option.some.injEq] at hbuf
              subst hbuf
              simp at hc
              subst hc
              exact Or.inr (Or.inl (by simp_all))
            · exact Or.inr (Or.inl (List.mem_cons_of_mem _ hc))
            · exact Or.inr (Or.inr hc)
          · rcases List.mem_cons.1 h with rfl | hc
            · exact Or.inr (Or.inl (List.mem_cons_self _ _))
            · rcases ih _ hc with ⟨buf, hbuf, _⟩ | hc | hc
              · exact absurd hbuf (by simp)
              · exact Or.inr (Or.inl (List.mem_cons_of_mem _ hc))
              · exact Or.inr (Or.inr hc)
      | some buf =>
          rw [muGo] at h
          split at h
          · rcases List.mem_cons.1 h with rfl | hc
            · exact Or.inr (Or.inr rfl)
            · rcases ih _ hc with ⟨b2, hb2, _⟩ | hc | hc
              · exact absurd hb2 (by simp)
              · exact Or.inr (Or.inl (List.mem_cons_of_mem _ hc))
              · exact Or.inr (Or.inr hc)
          · rcases ih _ h with ⟨b2, hb2, hc⟩ | hc | hc
            · rw [Option.some.injEq] at hb2
              subst hb2
              rcases List.mem_cons.1 hc with rfl | hc2
              · exact Or.inr (Or.inl (List.mem_cons_self _ _))
              · exact Or.inl ⟨buf, rfl, hc2⟩
            · exact Or.inr (Or.inl (List.mem_cons_of_mem _ hc))
            · exact Or.inr (Or.inr hc)

/-- Characters of the collapsed span come from the span or are the
inserted newline. -/
theorem muSub_mem (l : List Char) (c : Char) (h : c ∈ muSub l) :
    c ∈ l ∨ c = '\n' := by
  rcases muGo_mem l none c h with ⟨buf, hbuf, _⟩ | hc | hc
  · exact absurd hbuf (by simp)
  · exact Or.inl hc
  · exact Or.inr hc

/-- Folding `keepLonger` over candidates no longer than the accumulator
leaves the accumulator unchanged. -/
theorem foldl_keepLonger_of_le (m : List Char) (l : List (List Char))
    (h : ∀ x ∈ l, x.length ≤ m.length) : l.foldl keepLonger m = m := by
  induction l with
  | nil => rfl
  | cons x r ih =>
      have hx : ¬ m.length < x.length := not_lt.2 (h x (by simp))
      simp only [List.foldl_cons, keepLonger, if_neg hx]
      exact ih fun a ha => h a (List.mem_cons_of_mem _ ha)

/-- Folding `keepLonger` over candidates strictly shorter than `m` keeps
the accumulator strictly shorter than `m`. -/
theorem foldl_keepLonger_lt (m : List Char) (l : List (List Char)) :
    ∀ acc : List Char, (∀ x ∈ l, x.length < m.length) →
      acc.length < m.length → (l.foldl keepLonger acc).length < m.length := by
  induction l with
  | nil => exact fun acc _ h => h
  | cons x r ih =>
      intro acc h hacc
      simp only [List.foldl_cons]
      apply ih _ fun a ha => h a (List.mem_cons_of_mem _ ha)
      unfold keepLonger
      split_ifs
      · exact h x (by simp)
      · exact hacc

/-- The selection fold returns the unique strictly longest candidate. -/
theorem foldl_keepLonger_strict (m : List Char) (l : List (List Char)) :
    ∀ acc : List Char, m ∈ l → (∀ x ∈ l, x ≠ m → x.length < m.length) →
      (acc = m ∨ acc.length < m.length) → l.foldl keepLonger acc = m := by
  induction l with
  | nil => exact fun acc h _ _ => absurd h (List.not_mem_nil m)
  | cons x r ih =>
      intro acc hm hmax hacc
      simp only [List.foldl_cons]
      by_cases hx : x = m
      · subst hx
        have hacc' : keepLonger acc x = x := by
          unfold keepLonger
          split_ifs with h'
          · rfl
          · rcases hacc with rfl | hlt
            · rfl
            · exact absurd hlt h'
        rw [hacc']
        exact foldl_keepLonger_of_le x r fun a ha => by
          by_cases ha' : a = x
          · exact le_of_eq (by rw [ha'])
          · exact le_of_lt (hmax a (List.mem_cons_of_mem _ ha) ha')
      · have hm' : m ∈ r := by
          rcases List.mem_cons.1 hm with rfl | h'
          · exact absurd rfl hx
          · exact h'
        have hxlt : x.length < m.length := hmax x (by simp) hx
        apply ih _ hm' (fun a ha h' => hmax a (List.mem_cons_of_mem _ ha) h')
        rcases hacc with rfl | hlt
        · left
          unfold keepLonger
          rw [if_neg (not_lt.2 (le_of_lt hxlt))]
        · right
          unfold keepLonger
          split_ifs
          · exact hxlt
          · exact hlt

/-- `selectLongest` returns the unique strictly longest candidate. -/
theorem selectLongest_strict (l : List (List Char)) (m : List Char)
    (hm : m ∈ l) (hmax : ∀ x ∈ l, x ≠ m → x.length < m.length) :
    selectLongest l = m := by
  unfold selectLongest
  apply foldl_keepLonger_strict m l [] hm hmax
  rcases eq_or_ne m [] with rfl | hne
  · exact Or.inl rfl
  · exact Or.inr (List.length_pos.2 hne)

/-- `selectLongest` returns the first candidate of maximal length: earlier
candidates strictly shorter, later ones no longer. -/
theorem selectLongest_first (xs ys : List (List Char)) (m : List Char)
    (hxs : ∀ x ∈ xs, x.length < m.length) (hys : ∀ y ∈ ys, y.length ≤ m.length) :
    selectLongest (xs ++ m :: ys) = m := by
  unfold selectLongest
  rw [List.foldl_append, List.foldl_cons]
  rcases eq_or_ne m [] with rfl | hne
  · have hxs0 : xs = [] := by
      cases xs with
      | nil => rfl
      | cons a t => exact absurd (hxs a (by simp)) (by simp)
    subst hxs0
    exact foldl_keepLonger_of_le [] ys hys
  · have hacc : (xs.foldl keepLonger []).length < m.length :=
      foldl_keepLonger_lt m xs [] hxs (List.length_pos.2 hne)
    have hsel : keepLonger (xs.foldl keepLonger []) m = m := if_pos hacc
    rw [hsel]
    exact foldl_keepLonger_of_le m ys hys

/-!
Claims about the table-retention heuristic and the selection loops.
-/

/-- C1: among all candidates produced by all applicable section patterns,
the extractor selects exactly the candidate of maximum character length
(here: the unique strictly longest one), and that candidate is the one
post-processed and returned. -/
theorem mda_longest_selected (find1 find2 findQ : List Char → List (List Char))
    (txt : List Char) (form_type : String) (m : List Char)
    (hm : m ∈ mdaCands find1 find2 findQ txt form_type)
    (hmax : ∀ x ∈ mdaCands find1 find2 findQ txt form_type,
      x ≠ m → x.length < m.length) :
    clean_mda_text find1 find2 findQ txt form_type = postClean m := by
  unfold clean_mda_text
  rw [selectLongest_strict _ m hm hmax]

/-- Witness for C1: a 5-character candidate of the first pattern beats a
3-character candidate of the second pattern. -/
theorem mda_longest_selected_witness :
    "abcde".data ∈
      mdaCands (fun _ => ["abcde".data]) (fun _ => ["abc".data]) (fun _ => [])
        "zzz".data "10-k" ∧
    (∀ x ∈ mdaCands (fun _ => ["abcde".data]) (fun _ => ["abc".data]) (fun _ => [])
        "zzz".data "10-k", x ≠ "abcde".data → x.length < "abcde".data.length) ∧
    clean_mda_text (fun _ => ["abcde".data]) (fun _ => ["abc".data]) (fun _ => [])
        "zzz".data "10-k" = postClean "abcde".data :=
  ⟨by decide, by decide,
    mda_longest_selected _ _ _ _ _ _ (by decide) (by decide)⟩

/-- C3: on an exact length tie the earlier-found candidate wins: with the
candidate list split as earlier strictly shorter candidates, the winner,
and later candidates of at most its length, the winner is selected. -/
theorem mda_tie_first_seen (find1 find2 findQ : List Char → List (List Char))
    (txt : List Char) (xs ys : List (List Char)) (m : List Char)
    (hsplit : mdaCands find1 find2 findQ txt "10-k" = xs ++ m :: ys)
    (hxs : ∀ x ∈ xs, x.length < m.length)
    (hys : ∀ y ∈ ys, y.length ≤ m.length) :
    clean_mda_text find1 find2 findQ txt "10-k" = postClean m := by
  unfold clean_mda_text
  rw [hsplit, selectLongest_first xs ys m hxs hys]

/-- Witness for C3: two candidates of equal length 3, one from the first
pattern and one from the second; the first pattern's candidate wins. -/
theorem mda_tie_first_seen_witness :
    mdaCands (fun _ => ["abc".data]) (fun _ => ["xyz".data]) (fun _ => [])
        "zzz".data "10-k" = [] ++ "abc".data :: ["xyz".data] ∧
    (∀ x ∈ ([] : List (List Char)), x.length < "abc".data.length) ∧
    (∀ y ∈ ["xyz".data], y.length ≤ "abc".data.length) ∧
    clean_mda_text (fun _ => ["abc".data]) (fun _ => ["xyz".data]) (fun _ => [])
        "zzz".data "10-k" = postClean "abc".data :=
  ⟨by decide, by decide, by decide,
    mda_tie_first_seen (fun _ => ["abc".data]) (fun _ => ["xyz".data]) (fun _ => [])
      "zzz".data [] ["xyz".data] "abc".data (by decide) (by decide) (by decide)⟩

/-- C2 (counterexample): the span `nbspabcdefgh1` has 12 alphabetic and 1
numeric character, so the claim's density 1/13 < 0.1 demands RETAIN, but
the code's letter-count regex also deletes the literal substring `nbsp`,
leaving c = 8, d = 1, density 1/9 ≥ 0.1, and the span is DROPped. -/
theorem tab_density_letter_count_cex :
    ("nbspabcdefgh1".data.filter isLetterAZ).length = 12 ∧
    ("nbspabcdefgh1".data.filter isDigit09).length = 1 ∧
    tab_replace_spec "nbspabcdefgh1".data = tabWrap "nbspabcdefgh1".data ∧
    tab_replace "nbspabcdefgh1".data = [] := by
  refine ⟨by decide, by decide, by decide, by decide⟩

/-- C2 (amended): a table span is RETAINed iff its exact digit density
`d / (c + d)` is below 1/10, where `d` counts the numeric characters of
the collapsed span and `c` counts its alphabetic characters after
additionally deleting leftmost non-overlapping occurrences of the literal
substring `nbsp`; the boundary density exactly 1/10 is DROPped. -/
theorem tab_retained_iff_density (s : List Char)
    (h : 0 < cCount s + dCount s) :
    tab_replace s = tabWrap s ↔ densityLt (dCount s) (cCount s) := by
  have hwrap : tabWrap s ≠ [] := by simp [tabWrap, tabOpenMark]
  rw [densityLt_iff h]
  unfold tab_replace tabTry
  rw [if_neg (Nat.pos_iff_ne_zero.1 h)]
  split_ifs with h2
  · exact iff_of_true rfl h2
  · exact iff_of_false (fun he => hwrap he.symm) h2

/-- Witness for C2 (amended): the boundary span of 9 letters and 1 digit
(density exactly 1/10) is DROPped. -/
theorem tab_retained_iff_density_witness :
    0 < cCount "abcdefghi1".data + dCount "abcdefghi1".data ∧
    (tab_replace "abcdefghi1".data = tabWrap "abcdefghi1".data ↔
      densityLt (dCount "abcdefghi1".data) (cCount "abcdefghi1".data)) ∧
    tab_replace "abcdefghi1".data = [] :=
  ⟨by decide, tab_retained_iff_density _ (by decide), by decide⟩

/-- C5: a table span with no alphabetic and no numeric characters does not
abort: the zero-denominator division is caught and the span is DROPped,
the same outcome as density at or above the threshold. -/
theorem tab_zero_denominator_drop (s : List Char)
    (h : ∀ c ∈ s, isLetterAZ c = false ∧ isDigit09 c = false) :
    tab_replace s = [] := by
  have hc : cSub (muSub s) = [] := by
    apply cSub_eq_nil
    intro c hcmem
    rcases muSub_mem s c hcmem with hmem | rfl
    · exact (h c hmem).1
    · decide
  have hd : dSub (muSub s) = [] := by
    rw [dSub, List.filter_eq_nil_iff]
    intro a ha
    rcases muSub_mem s a ha with hmem | rfl
    · simp [(h a hmem).2]
    · decide
  unfold tab_replace tabTry cCount dCount
  rw [hc, hd]
  rfl

/-- Witness for C5: a span of punctuation only. -/
theorem tab_zero_denominator_drop_witness :
    (∀ c ∈ "+-*/".data, isLetterAZ c = false ∧ isDigit09 c = false) ∧
    tab_replace "+-*/".data = [] :=
  ⟨by decide, tab_zero_denominator_drop _ (by decide)⟩

/-- C10: `tab_replace` is total; when the letter and digit counts are not
both zero the guarded division cannot raise, the `except` branch is
unreachable (the `try` body yields a value), and the result is the
marker-wrapped span or the empty string. -/
theorem tab_replace_guarded_total (s : List Char)
    (h : 0 < cCount s + dCount s) :
    (tabTry s).isSome = true ∧
      (tab_replace s = tabWrap s ∨ tab_replace s = []) := by
  unfold tab_replace tabTry
  rw [if_neg (Nat.pos_iff_ne_zero.1 h)]
  split_ifs with h2
  · exact ⟨rfl, Or.inl rfl⟩
  · exact ⟨rfl, Or.inr rfl⟩

/-- Witness for C10: a letters-only span is wrapped, with the `try` body
returning a value. -/
theorem tab_replace_guarded_total_witness :
    0 < cCount "hello".data + dCount "hello".data ∧
    (tabTry "hello".data).isSome = true ∧
    (tab_replace "hello".data = tabWrap "hello".data ∨
      tab_replace "hello".data = []) :=
  ⟨by decide, tab_replace_guarded_total _ (by decide)⟩

/-- C6: when no applicable section pattern produces any match, both
extractors return exactly the empty string; the empty candidate survives
every post-processing step unchanged. -/
theorem extract_no_match_empty (find1 find2 findQ findI : List Char → List (List Char))
    (txt txt2 : List Char) (form_type : String)
    (h1 : find1 (tab2Sub txt) = []) (h2 : find2 (tab2Sub txt) = [])
    (h3 : findQ (tab2Sub txt) = []) (h4 : findI (tab2Sub txt2) = []) :
    clean_mda_text find1 find2 findQ txt form_type = [] ∧
      clean_item1_text findI txt2 = [] := by
  constructor
  · unfold clean_mda_text mdaCands
    split_ifs
    · rw [h1, h2]; rfl
    · rw [h3]; rfl
    · rfl
  · unfold clean_item1_text
    rw [h4]; rfl

/-- Witness for C6: match-free pattern functions on a concrete document. -/
theorem extract_no_match_empty_witness :
    clean_mda_text (fun _ => []) (fun _ => []) (fun _ => []) "no heading here".data
        "10-k" = [] ∧
    clean_item1_text (fun _ => []) "no heading here".data = [] :=
  extract_no_match_empty _ _ _ _ _ _ _ rfl rfl rfl rfl

/-- C7: any form type other than exactly `10-k` or `10-q` (including
`8-k`, `10-k/a`, `10-q/a` and case variants such as `10-K`) selects no
pattern and yields the empty string. -/
theorem mda_unknown_form_empty (find1 find2 findQ : List Char → List (List Char))
    (txt : List Char) (form_type : String)
    (h1 : form_type ≠ "10-k") (h2 : form_type ≠ "10-q") :
    clean_mda_text find1 find2 findQ txt form_type = [] := by
  unfold clean_mda_text mdaCands
  rw [if_neg h1, if_neg h2]
  rfl

/-- Witness for C7: the upper-case variant `10-K`, with pattern functions
that do match, still yields the empty string. -/
theorem mda_unknown_form_empty_witness :
    ("10-K" ≠ "10-k" ∧ "10-K" ≠ "10-q") ∧
    clean_mda_text (fun _ => ["found".data]) (fun _ => ["found".data])
      (fun _ => ["found".data]) "text".data "10-K" = [] :=
  ⟨⟨by decide, by decide⟩,
    mda_unknown_form_empty _ _ _ _ _ (by decide) (by decide)⟩

/-!
The punctuation-spacing repair.
-/

/-- The punctuation scan passes over a character other than a space. -/
theorem punctGo_cons_ne_space (x : Char) (hx : x ≠ ' ') (r : List Char) :
    punctGo (x :: r) = x :: punctGo r := by
  rcases r with _ | ⟨b, _ | ⟨b2, r2⟩⟩ <;> simp [punctGo, hx]

/-- C9 (counterexample): in the post-collapse excerpt `a . . b` the second
period is surrounded by single spaces, yet the non-overlapping scan has
already consumed the shared middle space as the first repair's trailing
space, so the output is `a. . b` and not the claim's `a.. b` in which
every such occurrence lost its leading space. -/
theorem punct_repair_cex :
    clean_item1_text (fun _ => ["a . . b".data]) [] = "a. . b".data ∧
    punctGo "a . . b".data = "a. . b".data ∧
    "a. . b".data ≠ "a.. b".data :=
  ⟨by decide, by decide, by decide⟩

/-- C9 (amended): the repairs are applied by a left-to-right
non-overlapping scan: an occurrence of a space-surrounded punctuation mark
whose preceding text contains no space (so no earlier match can overlap
it) loses its leading space while the trailing space is kept, and the scan
resumes after that trailing space; an occurrence whose leading space was
already consumed as the previous repair's trailing space is left as is. -/
theorem punct_repair_leftmost (u v : List Char) (p : Char)
    (hp : isPunctMark p = true) (hu : ' ' ∉ u) :
    punctGo (u ++ ' ' :: p :: ' ' :: v) = u ++ p :: ' ' :: punctGo v := by
  induction u with
  | nil =>
      simp only [List.nil_append]
      simp [punctGo, hp]
  | cons x u' ih =>
      have hx : x ≠ ' ' := fun h => hu (h ▸ List.mem_cons_self x u')
      rw [List.cons_append, punctGo_cons_ne_space x hx,
        ih fun h => hu (List.mem_cons_of_mem _ h)]
      rfl

/-- Witness for C9 (amended): `word , next` becomes `word, next`. -/
theorem punct_repair_leftmost_witness :
    isPunctMark ',' = true ∧ ' ' ∉ "word".data ∧
    punctGo ("word".data ++ ' ' :: ',' :: ' ' :: "next".data) =
      "word".data ++ ',' :: ' ' :: punctGo "next".data ∧
    "word".data ++ ',' :: ' ' :: punctGo "next".data = "word, next".data :=
  ⟨by decide, by decide,
    punct_repair_leftmost "word".data "next".data ',' (by decide) (by decide),
    by decide⟩

/-!
The whitespace-collapse guarantee of the post-processing pipeline.
-/

/-- A punctuation mark of the repair pattern is not whitespace. -/
theorem isPunctMark_not_space (c : Char) (h : isPunctMark c = true) :
    pyIsSpace c = false := by
  have hc : (((c = ',' ∨ c = ';') ∨ c = '.') ∨ c = '’') ∨ c = '®' := by
    simpa [isPunctMark, Bool.or_eq_true, decide_eq_true_eq] using h
  rcases hc with (((rfl | rfl) | rfl) | rfl) | rfl <;> decide

/-- Every whitespace character the whitespace-collapse scan emits is the
single space it inserts. -/
theorem wsGo_space_mem (l : List Char) :
    ∀ (b : Bool), ∀ c ∈ wsGo b l, pyIsSpace c = true → c = ' ' := by
  induction l with
  | nil => intro b c hc; simp [wsGo] at hc
  | cons x r ih =>
      intro b c hc hcs
      cases b with
      | false =>
          rw [wsGo] at hc
          split at hc
          · rcases List.mem_cons.1 hc with rfl | hc2
            · rfl
            · exact ih true c hc2 hcs
          · rcases List.mem_cons.1 hc with rfl | hc2
            · simp_all
            · exact ih false c hc2 hcs
      | true =>
          rw [wsGo] at hc
          split at hc
          · exact ih true c hc hcs
          · rcases List.mem_cons.1 hc with rfl | hc2
            · simp_all
            · exact ih false c hc2 hcs

/-- In skipping mode the whitespace-collapse scan next emits a non-space
character. -/
theorem wsGo_true_head (l : List Char) :
    ∀ c, (wsGo true l).head? = some c → pyIsSpace c = false := by
  induction l with
  | nil => intro c hc; simp [wsGo] at hc
  | cons x r ih =>
      intro c hc
      rw [wsGo] at hc
      split at hc
      · exact ih c hc
      · rw [List.head?_cons, Option.some.injEq] at hc
        subst hc
        simp_all

/-- The whitespace-collapse output never has two adjacent whitespace
characters. -/
theorem wsGo_chain (l : List Char) :
    ∀ b, (wsGo b l).Chain' spacedApart := by
  induction l with
  | nil => intro b; simp [wsGo]
  | cons x r ih =>
      intro b
      have hcons : ∀ (y : Char), pyIsSpace y = false →
          (y :: wsGo false r).Chain' spacedApart := by
        intro y hy
        refine List.chain'_cons'.2 ⟨?_, ih false⟩
        intro z _
        exact fun hz => by simp [hy] at hz
      have hspace : (' ' :: wsGo true r).Chain' spacedApart := by
        refine List.chain'_cons'.2 ⟨?_, ih true⟩
        intro z hz
        have := wsGo_true_head r z hz
        exact fun hc => by simp [this] at hc
      cases b with
      | false =>
          rw [wsGo]
          split
          · exact hspace
          · exact hcons x (by simp_all)
      | true =>
          rw [wsGo]
          split
          · exact ih true
          · exact hcons x (by simp_all)

/-- Characters of the punctuation-repair output come from the input or are
the space it writes back. -/
theorem punctGo_mem (l : List Char) :
    ∀ c ∈ punctGo l, c ∈ l ∨ c = ' ' := by
  induction l using punctGo.induct with
  | case1 c r hp ih =>
      intro a ha
      rw [punctGo, if_pos hp] at ha
      rcases List.mem_cons.1 ha with rfl | ha2
      · exact Or.inl (by simp)
      · rcases List.mem_cons.1 ha2 with rfl | ha3
        · exact Or.inr rfl
        · rcases ih a ha3 with h | h
          · exact Or.inl (by simp [h])
          · exact Or.inr h
  | case2 c r hp ih =>
      intro a ha
      rw [punctGo, if_neg hp] at ha
      rcases List.mem_cons.1 ha with rfl | ha2
      · exact Or.inr rfl
      · rcases ih a ha2 with h | h
        · exact Or.inl (List.mem_cons_of_mem _ h)
        · exact Or.inr h
  | case3 c r hne ih =>
      intro a ha
      rw [punctGo] at ha
      · rcases List.mem_cons.1 ha with rfl | ha2
        · exact Or.inl (by simp)
        · rcases ih a ha2 with h | h
          · exact Or.inl (List.mem_cons_of_mem _ h)
          · exact Or.inr h
      · exact hne
  | case4 => intro a ha; simp [punctGo] at ha

/-- The punctuation repair preserves the no-adjacent-whitespace chain when
every whitespace character of the input is a single space. -/
theorem punctGo_chain : ∀ l : List Char,
    (∀ c ∈ l, pyIsSpace c = true → c = ' ') → l.Chain' spacedApart →
    (punctGo l).Chain' spacedApart := by
  intro l
  induction l using punctGo.induct with
  | case1 c r hp ih =>
      intro h1 h2
      rw [punctGo, if_pos hp]
      obtain ⟨hr1, h2'⟩ := List.chain'_cons.1 h2
      obtain ⟨hr2, h2''⟩ := List.chain'_cons.1 h2'
      obtain ⟨hr3, h2r⟩ := List.chain'_cons'.1 h2''
      have hcw : pyIsSpace c = false := by
        cases hcw : pyIsSpace c with
        | false => rfl
        | true => exact absurd ⟨by decide, hcw⟩ hr1
      refine List.chain'_cons.2 ⟨fun hcon => by simp [hcw] at hcon, ?_⟩
      refine List.chain'_cons'.2 ⟨?_, ih (fun a ha h => h1 a (by simp [ha]) h) h2r⟩
      intro y hy
      cases r with
      | nil => simp [punctGo] at hy
      | cons z r' =>
          have hz : spacedApart ' ' z := hr3 z rfl
          have hzw : pyIsSpace z = false := by
            cases hzw : pyIsSpace z with
            | false => rfl
            | true => exact absurd ⟨by decide, hzw⟩ hz
          have hzs : z ≠ ' ' := fun he => by rw [he] at hzw; exact absurd hzw (by decide)
          rw [punctGo_cons_ne_space z hzs, List.head?_cons, Option.mem_some_iff] at hy
          subst hy
          exact hz
  | case2 c r hp ih =>
      intro h1 h2
      rw [punctGo, if_neg hp]
      obtain ⟨hr1, h2'⟩ := List.chain'_cons.1 h2
      have hcw : pyIsSpace c = false := by
        cases hcw : pyIsSpace c with
        | false => rfl
        | true => exact absurd ⟨by decide, hcw⟩ hr1
      have hcs : c ≠ ' ' := fun he => by rw [he] at hcw; exact absurd hcw (by decide)
      refine List.chain'_cons'.2
        ⟨?_, ih (fun a ha h => h1 a (List.mem_cons_of_mem _ ha) h) h2'⟩
      intro y hy
      rw [punctGo_cons_ne_space c hcs, List.head?_cons, Option.mem_some_iff] at hy
      subst hy
      exact hr1
  | case3 c r hne ih =>
      intro h1 h2
      rw [punctGo]
      · refine List.chain'_cons'.2
          ⟨?_, ih (fun a ha h => h1 a (List.mem_cons_of_mem _ ha) h) h2.tail⟩
        intro y hy
        by_cases hws : pyIsSpace c = true
        · have hc' : c = ' ' := h1 c (by simp) hws
          subst hc'
          obtain ⟨hr3, _⟩ := List.chain'_cons'.1 h2
          cases r with
          | nil => simp [punctGo] at hy
          | cons z r' =>
              have hz : spacedApart ' ' z := hr3 z rfl
              have hzw : pyIsSpace z = false := by
                cases hzw : pyIsSpace z with
                | false => rfl
                | true => exact absurd ⟨by decide, hzw⟩ hz
              have hzs : z ≠ ' ' := fun he => by
                rw [he] at hzw; exact absurd hzw (by decide)
              rw [punctGo_cons_ne_space z hzs, List.head?_cons,
                Option.mem_some_iff] at hy
              subst hy
              exact hz
        · exact fun hcon => hws hcon.1
      · exact hne
  | case4 => intro _ _; simp [punctGo]

/-- The anchored comment-fragment removal returns a suffix of its input. -/
theorem dropToComment_suffix : ∀ (l r : List Char), dropToComment l = some r → r <:+ l := by
  intro l
  induction l using dropToComment.induct with
  | case1 r0 =>
      intro r h
      rw [dropToComment, Option.some.injEq] at h
      subst h
      exact ⟨['"', ' ', '-', '-', '>'], rfl⟩
  | case2 r0 =>
      intro r h
      rw [dropToComment] at h
      exact absurd h (by simp)
  | case3 c r0 hne hnl ih =>
      intro r h
      rw [dropToComment] at h
      · exact (ih r h).trans (List.suffix_cons c r0)
      · exact hne
      · exact hnl
  | case4 =>
      intro r h
      rw [dropToComment] at h
      exact absurd h (by simp)

/-- The post-processing pipeline yields an excerpt whose whitespace
characters are single spaces with no two adjacent. -/
theorem postClean_spaced (s : List Char) :
    (∀ c ∈ postClean s, pyIsSpace c = true → c = ' ') ∧
    (postClean s).Chain' spacedApart := by
  unfold postClean
  have hmem : ∀ c ∈ wsCollapse (sepSub (toc2Sub (toc1Sub s))),
      pyIsSpace c = true → c = ' ' :=
    wsGo_space_mem (sepSub (toc2Sub (toc1Sub s))) false
  have hch : (wsCollapse (sepSub (toc2Sub (toc1Sub s)))).Chain' spacedApart :=
    wsGo_chain (sepSub (toc2Sub (toc1Sub s))) false
  have hmem2 : ∀ c ∈ punctGo (wsCollapse (sepSub (toc2Sub (toc1Sub s)))),
      pyIsSpace c = true → c = ' ' := by
    intro c hc hcs
    rcases punctGo_mem _ c hc with h | h
    · exact hmem c h hcs
    · exact h
  have hch2 := punctGo_chain _ hmem hch
  unfold commentStrip
  cases hdc : dropToComment (punctGo (wsCollapse (sepSub (toc2Sub (toc1Sub s))))) with
  | none => exact ⟨hmem2, hch2⟩
  | some r =>
      have hsuf := dropToComment_suffix _ r hdc
      exact ⟨fun c hc hcs => hmem2 c (hsuf.subset hc) hcs, hch2.suffix hsuf⟩

/-- C8: the final excerpts of `clean_mda_text` and `clean_item1_text` have
every whitespace run reduced to a single space: no two adjacent whitespace
characters and no tab or newline characters remain, for every input and
every section-pattern behavior. -/
theorem excerpt_single_spaced (find1 find2 findQ findI : List Char → List (List Char))
    (txt txt2 : List Char) (form_type : String) :
    (∀ c ∈ clean_mda_text find1 find2 findQ txt form_type, c ≠ '\t' ∧ c ≠ '\n') ∧
    (clean_mda_text find1 find2 findQ txt form_type).Chain' spacedApart ∧
    (∀ c ∈ clean_item1_text findI txt2, c ≠ '\t' ∧ c ≠ '\n') ∧
    (clean_item1_text findI txt2).Chain' spacedApart := by
  have key : ∀ s : List Char,
      (∀ c ∈ postClean s, c ≠ '\t' ∧ c ≠ '\n') ∧ (postClean s).Chain' spacedApart := by
    intro s
    obtain ⟨hm, hc⟩ := postClean_spaced s
    refine ⟨fun c hcm => ⟨?_, ?_⟩, hc⟩
    · intro hEq
      subst hEq
      exact absurd (hm _ hcm (by decide)) (by decide)
    · intro hEq
      subst hEq
      exact absurd (hm _ hcm (by decide)) (by decide)
  exact ⟨(key _).1, (key _).2, (key _).1, (key _).2⟩

/-!
Idempotence of the normalizer: tag-freeness and the stages it silences.
-/

/-- Tag-freeness descends to the tail. -/
theorem noTag_tail (c : Char) (l : List Char) (h : noTag (c :: l)) : noTag l :=
  fun hs => h (hs.trans (List.sublist_cons_self c l))

/-- Prepending anything but `<` preserves tag-freeness. -/
theorem noTag_cons (c : Char) (l : List Char) (hc : c ≠ '<') (h : noTag l) :
    noTag (c :: l) := by
  intro hs
  cases hs with
  | cons a h2 => exact h h2
  | cons₂ a h2 => exact hc rfl

/-- Prepending `<` to text without `>` is tag-free. -/
theorem noTag_cons_lt (l : List Char) (h : '>' ∉ l) : noTag ('<' :: l) := by
  intro hs
  cases hs with
  | cons a h2 => exact h (h2.subset (by simp))
  | cons₂ a h2 => exact h (h2.subset (by simp))

/-- After a `<`, tag-free text contains no `>`. -/
theorem noTag_no_gt (l : List Char) (h : noTag ('<' :: l)) : '>' ∉ l := by
  intro hm
  exact h (List.Sublist.cons₂ '<' (List.singleton_sublist.2 hm))

/-- Tag-freeness is closed under subsequences. -/
theorem noTag_sublist {l' l : List Char} (hs : l'.Sublist l) (h : noTag l) :
    noTag l' :=
  fun hx => h (hx.trans hs)

/-- The paragraph rule cannot fire on tag-free text. -/
theorem pSub_id : ∀ l, noTag l → pSub l = l := by
  intro l
  induction l using pSub.induct with
  | case1 r ih =>
      intro h
      exact absurd (List.Sublist.cons₂ '<' (List.singleton_sublist.2 (by simp))) h
  | case2 r ih =>
      intro h
      exact absurd (List.Sublist.cons₂ '<' (List.singleton_sublist.2 (by simp))) h
  | case3 c r hne1 hne2 ih =>
      intro h
      rw [pSub]
      · rw [ih (noTag_tail c r h)]
      · exact hne1
      · exact hne2
  | case4 => intro _; rfl

/-- The line-break rule cannot fire on tag-free text. -/
theorem brSub_id : ∀ l, noTag l → brSub l = l := by
  intro l
  induction l using brSub.induct with
  | case1 r ih =>
      intro h
      exact absurd (List.Sublist.cons₂ '<' (List.singleton_sublist.2 (by simp))) h
  | case2 r ih =>
      intro h
      exact absurd (List.Sublist.cons₂ '<' (List.singleton_sublist.2 (by simp))) h
  | case3 c r hne1 hne2 ih =>
      intro h
      rw [brSub]
      · rw [ih (noTag_tail c r h)]
      · exact hne1
      · exact hne2
  | case4 => intro _; rfl

/-- The div rule cannot fire on tag-free text. -/
theorem divSub_id : ∀ l, noTag l → divSub l = l := by
  intro l
  induction l using divSub.induct with
  | case1 r ih =>
      intro h
      exact absurd (List.Sublist.cons₂ '<' (List.singleton_sublist.2 (by simp))) h
  | case2 r ih =>
      intro h
      exact absurd (List.Sublist.cons₂ '<' (List.singleton_sublist.2 (by simp))) h
  | case3 c r hne1 hne2 ih =>
      intro h
      rw [divSub]
      · rw [ih (noTag_tail c r h)]
      · exact hne1
      · exact hne2
  | case4 => intro _; rfl

/-- When the rest of the input has no `>`, the pending tag buffer is
flushed verbatim. -/
theorem muGo_pending_no_gt : ∀ (l buf : List Char), '>' ∉ l →
    muGo (some buf) l = buf.reverse ++ l := by
  intro l
  induction l with
  | nil => intro buf _; simp [muGo]
  | cons c r ih =>
      intro buf h
      have hc : ¬ c = '>' := fun he => h (he ▸ List.mem_cons_self c r)
      rw [muGo, if_neg hc, ih (c :: buf) fun hm => h (List.mem_cons_of_mem _ hm)]
      simp

/-- The second-pass unwrap cannot fire on tag-free text. -/
theorem muSub_id : ∀ l, noTag l → muSub l = l := by
  intro l
  unfold muSub
  induction l with
  | nil => intro _; rfl
  | cons c r ih =>
      intro h
      rw [muGo]
      split_ifs with hc
      · subst hc
        rw [muGo_pending_no_gt r ['<'] (noTag_no_gt r h)]
        rfl
      · rw [ih (noTag_tail c r h)]

set_option maxHeartbeats 1000000 in
/-- Entity decoding is the identity on ampersand-free text. -/
theorem unescape_id : ∀ l, '&' ∉ l → unescape l = l := by
  intro l
  induction l using unescape.induct with
  | case1 r ih => intro h; exact absurd (by simp) h
  | case2 r ih => intro h; exact absurd (by simp) h
  | case3 r ih => intro h; exact absurd (by simp) h
  | case4 r ih => intro h; exact absurd (by simp) h
  | case5 c r h1 h2 h3 h4 ih =>
      intro h
      rw [unescape]
      · rw [ih fun hm => h (List.mem_cons_of_mem _ hm)]
      · exact h1
      · exact h2
      · exact h3
      · exact h4
  | case6 => intro _; rfl

/-- The NBSP/ZWSP replacement is the identity when neither character
occurs. -/
theorem nbspSub_id : ∀ l, (∀ c ∈ l, c ≠ '\xa0' ∧ c ≠ '​') → nbspSub l = l := by
  intro l
  unfold nbspSub
  induction l with
  | nil => intro _; rfl
  | cons c r ih =>
      intro h
      rw [List.map_cons]
      have hc := h c (by simp)
      rw [if_neg (by simp [hc.1, hc.2]), ih fun a ha => h a (List.mem_cons_of_mem _ ha)]

set_option maxHeartbeats 1000000 in
theorem tab1Go_pending : ∀ (st : Option (List Char)) (l : List Char),
    ∀ buf, st = some buf → '>' ∉ l →
      tab1Go st l = '<' :: 't' :: 'a' :: 'b' :: 'l' :: 'e' :: (buf.reverse ++ l) := by
  intro st l
  induction st, l using tab1Go.induct with
  | case1 => intro buf hbuf _; exact absurd hbuf (by simp)
  | case2 buf0 =>
      intro buf hbuf _
      injection hbuf with hb
      subst hb
      simp [tab1Go]
  | case3 buf0 r =>
      intro buf _ hgt
      exact absurd (by simp) hgt
  | case4 r ih => intro buf hbuf _; exact absurd hbuf (by simp)
  | case5 buf0 c r hne ih =>
      intro buf hbuf hgt
      injection hbuf with hb
      subst hb
      rw [tab1Go]
      · rw [ih (c :: buf0) rfl fun hm => hgt (List.mem_cons_of_mem _ hm)]
        simp
      · exact hne
  | case6 c r hne ih => intro buf hbuf _; exact absurd hbuf (by simp)

set_option maxHeartbeats 1000000 in
theorem tab1Go_none_id : ∀ (st : Option (List Char)) (l : List Char),
    st = none → noTag l → tab1Go st l = l := by
  intro st l
  induction st, l using tab1Go.induct with
  | case1 => intro _ _; rfl
  | case2 buf0 => intro hst _; exact absurd hst (by simp)
  | case3 buf0 r => intro hst _; exact absurd hst (by simp)
  | case4 r ih =>
      intro _ hT
      have hgt : '>' ∉ 't' :: 'a' :: 'b' :: 'l' :: 'e' :: r := noTag_no_gt _ hT
      rw [tab1Go, tab1Go_pending (some []) r [] rfl fun hm => hgt (by simp [hm])]
      simp
  | case5 buf0 c r hne ih => intro hst _; exact absurd hst (by simp)
  | case6 c r hne ih =>
      intro _ hT
      rw [tab1Go]
      · rw [ih rfl (noTag_tail c r hT)]
      · exact hne

/-- The tag-free text is untouched by the table-boundary substitution. -/
theorem tab1Sub_id (l : List Char) (h : noTag l) : tab1Sub l = l :=
  tab1Go_none_id none l rfl h

/-- Characters of a `tab_replace` result come from the span or the table
markers. -/
theorem tab_replace_mem : ∀ (s : List Char) (c : Char), c ∈ tab_replace s →
    c ∈ s ∨ c ∈ ['[', 'T', 'A', 'B', 'L', 'E', ']', '/'] := by
  intro s c h
  unfold tab_replace tabTry at h
  split_ifs at h
  · simp at h
  · simp only [Option.getD_some] at h
    unfold tabWrap at h
    rcases List.mem_append.1 h with h1 | h1
    · rcases List.mem_append.1 h1 with h2 | h2
      · exact Or.inr ((show tabOpenMark ⊆ ['[', 'T', 'A', 'B', 'L', 'E', ']', '/'] by decide) h2)
      · exact Or.inl h2
    · exact Or.inr ((show tabCloseMark ⊆ ['[', 'T', 'A', 'B', 'L', 'E', ']', '/'] by decide) h1)
  · simp at h

set_option maxHeartbeats 1000000 in
theorem tab1Go_mem : ∀ (st : Option (List Char)) (l : List Char) (c : Char),
    c ∈ tab1Go st l →
    c ∈ l ∨ (∃ buf, st = some buf ∧ c ∈ buf) ∨
      c ∈ ['[', 'T', 'A', 'B', 'L', 'E', ']', '/', '<', '>', 't', 'a', 'b', 'l', 'e'] := by
  intro st l
  induction st, l using tab1Go.induct with
  | case1 => intro c h; simp [tab1Go] at h
  | case2 buf0 =>
      intro c h
      rw [tab1Go] at h
      rcases List.mem_cons.1 h with rfl | h
      · right; right; simp
      rcases List.mem_cons.1 h with rfl | h
      · right; right; simp
      rcases List.mem_cons.1 h with rfl | h
      · right; right; simp
      rcases List.mem_cons.1 h with rfl | h
      · right; right; simp
      rcases List.mem_cons.1 h with rfl | h
      · right; right; simp
      rcases List.mem_cons.1 h with rfl | h
      · right; right; simp
      · right; left; exact ⟨buf0, rfl, List.mem_reverse.1 h⟩
  | case3 buf0 r ih =>
      intro c h
      rw [tab1Go] at h
      rcases List.mem_append.1 h with h1 | h1
      · rcases tab_replace_mem _ c h1 with h2 | h2
        · rcases List.mem_cons.1 h2 with rfl | h2
          · right; right; simp
          rcases List.mem_cons.1 h2 with rfl | h2
          · right; right; simp
          rcases List.mem_cons.1 h2 with rfl | h2
          · right; right; simp
          rcases List.mem_cons.1 h2 with rfl | h2
          · right; right; simp
          rcases List.mem_cons.1 h2 with rfl | h2
          · right; right; simp
          rcases List.mem_cons.1 h2 with rfl | h2
          · right; right; simp
          rcases List.mem_append.1 h2 with h3 | h3
          · right; left; exact ⟨buf0, rfl, List.mem_reverse.1 h3⟩
          · right; right
            exact (show (['<', '/', 't', 'a', 'b', 'l', 'e', '>'] : List Char) ⊆
              ['[', 'T', 'A', 'B', 'L', 'E', ']', '/', '<', '>', 't', 'a', 'b', 'l', 'e']
              by decide) h3
        · right; right
          exact (show (['[', 'T', 'A', 'B', 'L', 'E', ']', '/'] : List Char) ⊆
            ['[', 'T', 'A', 'B', 'L', 'E', ']', '/', '<', '>', 't', 'a', 'b', 'l', 'e']
            by decide) h2
      · rcases ih c h1 with h2 | h2 | h2
        · left
          simp only [List.mem_cons]
          right; right; right; right; right; right; right; right
          exact h2
        · rcases h2 with ⟨buf, hbuf, _⟩
          exact absurd hbuf (by simp)
        · right; right; exact h2
  | case4 r ih =>
      intro c h
      rw [tab1Go] at h
      rcases ih c h with h2 | h2 | h2
      · left
        simp only [List.mem_cons]
        right; right; right; right; right; right
        exact h2
      · rcases h2 with ⟨buf, hbuf, hc⟩
        injection hbuf with hb
        subst hb
        simp at hc
      · right; right; exact h2
  | case5 buf0 c0 r hne ih =>
      intro c h
      rw [tab1Go] at h
      · rcases ih c h with h2 | h2 | h2
        · exact Or.inl (List.mem_cons_of_mem _ h2)
        · rcases h2 with ⟨buf, hbuf, hc⟩
          injection hbuf with hb
          subst hb
          rcases List.mem_cons.1 hc with rfl | hc2
          · exact Or.inl (List.mem_cons_self _ _)
          · exact Or.inr (Or.inl ⟨buf0, rfl, hc2⟩)
        · right; right; exact h2
      · exact hne
  | case6 c0 r hne ih =>
      intro c h
      rw [tab1Go] at h
      · rcases List.mem_cons.1 h with rfl | h2
        · exact Or.inl (List.mem_cons_self _ _)
        · rcases ih c h2 with h3 | h3 | h3
          · exact Or.inl (List.mem_cons_of_mem _ h3)
          · rcases h3 with ⟨buf, hbuf, _⟩
            exact absurd hbuf (by simp)
          · right; right; exact h3
      · exact hne

/-- The paragraph rule only removes tags and writes newlines. -/
theorem pSub_mem : ∀ l c, c ∈ pSub l → c ∈ l ∨ c = '\n' := by
  intro l
  induction l using pSub.induct with
  | case1 r ih =>
      intro c h
      rcases List.mem_cons.1 h with rfl | h2
      · exact Or.inr rfl
      · rcases ih c h2 with h3 | h3
        · exact Or.inl (by simp [h3])
        · exact Or.inr h3
  | case2 r ih =>
      intro c h
      rcases List.mem_cons.1 h with rfl | h2
      · exact Or.inr rfl
      · rcases ih c h2 with h3 | h3
        · exact Or.inl (by simp [h3])
        · exact Or.inr h3
  | case3 c0 r hne1 hne2 ih =>
      intro c h
      rw [pSub] at h
      · rcases List.mem_cons.1 h with rfl | h2
        · exact Or.inl (List.mem_cons_self _ _)
        · rcases ih c h2 with h3 | h3
          · exact Or.inl (List.mem_cons_of_mem _ h3)
          · exact Or.inr h3
      · exact hne1
      · exact hne2
  | case4 => intro c h; simp [pSub] at h

/-- The line-break rule only removes tags and writes newlines. -/
theorem brSub_mem : ∀ l c, c ∈ brSub l → c ∈ l ∨ c = '\n' := by
  intro l
  induction l using brSub.induct with
  | case1 r ih =>
      intro c h
      rcases List.mem_cons.1 h with rfl | h2
      · exact Or.inr rfl
      · rcases ih c h2 with h3 | h3
        · exact Or.inl (by simp [h3])
        · exact Or.inr h3
  | case2 r ih =>
      intro c h
      rcases List.mem_cons.1 h with rfl | h2
      · exact Or.inr rfl
      · rcases ih c h2 with h3 | h3
        · exact Or.inl (by simp [h3])
        · exact Or.inr h3
  | case3 c0 r hne1 hne2 ih =>
      intro c h
      rw [brSub] at h
      · rcases List.mem_cons.1 h with rfl | h2
        · exact Or.inl (List.mem_cons_self _ _)
        · rcases ih c h2 with h3 | h3
          · exact Or.inl (List.mem_cons_of_mem _ h3)
          · exact Or.inr h3
      · exact hne1
      · exact hne2
  | case4 => intro c h; simp [brSub] at h

/-- The div rule only removes tags and writes newlines. -/
theorem divSub_mem : ∀ l c, c ∈ divSub l → c ∈ l ∨ c = '\n' := by
  intro l
  induction l using divSub.induct with
  | case1 r ih =>
      intro c h
      rcases List.mem_cons.1 h with rfl | h2
      · exact Or.inr rfl
      · rcases ih c h2 with h3 | h3
        · exact Or.inl (by simp [h3])
        · exact Or.inr h3
  | case2 r ih =>
      intro c h
      rcases List.mem_cons.1 h with rfl | h2
      · exact Or.inr rfl
      · rcases ih c h2 with h3 | h3
        · exact Or.inl (by simp [h3])
        · exact Or.inr h3
  | case3 c0 r hne1 hne2 ih =>
      intro c h
      rw [divSub] at h
      · rcases List.mem_cons.1 h with rfl | h2
        · exact Or.inl (List.mem_cons_self _ _)
        · rcases ih c h2 with h3 | h3
          · exact Or.inl (List.mem_cons_of_mem _ h3)
          · exact Or.inr h3
      · exact hne1
      · exact hne2
  | case4 => intro c h; simp [divSub] at h

/-- Characters of the ordered-unwrap output come from the input or are
newlines. -/
theorem mu1Sub_mem (l : List Char) (c : Char) (h : c ∈ mu1Sub l) :
    c ∈ l ∨ c = '\n' := by
  unfold mu1Sub at h
  rcases divSub_mem _ c h with h2 | h2
  · rcases brSub_mem _ c h2 with h3 | h3
    · exact pSub_mem _ c h3
    · exact Or.inr h3
  · exact Or.inr h2

/-- The second-pass unwrap leaves no `<` with a later `>`. -/
theorem muGo_noTag : ∀ (l : List Char) (st : Option (List Char)),
    (∀ buf, st = some buf → '>' ∉ buf) → noTag (muGo st l) := by
  intro l
  induction l with
  | nil =>
      intro st hst
      cases st with
      | none =>
          intro hs
          simp only [muGo] at hs
          simpa using List.sublist_nil.1 hs
      | some buf =>
          intro hs
          have : '>' ∈ buf.reverse := (List.Sublist.subset hs) (by simp)
          exact hst buf rfl (List.mem_reverse.1 this)
  | cons c r ih =>
      intro st hst
      cases st with
      | none =>
          rw [muGo]
          split_ifs with hc
          · refine ih (some [c]) fun buf hb => ?_
            injection hb with hb
            subst hb
            simp [hc]
          · exact noTag_cons c _ hc (ih none (by simp))
      | some buf =>
          rw [muGo]
          split_ifs with hc
          · exact noTag_cons '\n' _ (by decide) (ih none (by simp))
          · refine ih (some (c :: buf)) fun buf' hb => ?_
            injection hb with hb
            subst hb
            intro hm
            rcases List.mem_cons.1 hm with he | hm2
            · exact hc he.symm
            · exact hst buf rfl hm2

/-- The collapsed text is tag-free. -/
theorem muSub_noTag (l : List Char) : noTag (muSub l) :=
  muGo_noTag l none (by simp)

/-- The NBSP/ZWSP replacement preserves tag-freeness. -/
theorem noTag_nbspSub (l : List Char) (h : noTag l) : noTag (nbspSub l) := by
  intro hs
  unfold nbspSub at hs
  obtain ⟨l', hsub, heq⟩ := List.sublist_map_iff.1 hs
  rcases l' with _ | ⟨a, _ | ⟨b, rest⟩⟩
  · simp at heq
  · simp at heq
  · rw [List.map_cons, List.map_cons] at heq
    have h1 : '<' = (if a = '\xa0' || a = '​' then '\n' else a) := by
      have := congrArg (fun t => t.head?) heq
      simpa using this
    have h2 : '>' = (if b = '\xa0' || b = '​' then '\n' else b) := by
      have := congrArg (fun t => t.tail.head?) heq
      simpa using this
    have ha : a = '<' := by
      split_ifs at h1
      · exact absurd h1 (by decide)
      · exact h1.symm
    have hb : b = '>' := by
      split_ifs at h2
      · exact absurd h2 (by decide)
      · exact h2.symm
    subst ha
    subst hb
    exact h (List.Sublist.trans
      (List.Sublist.cons₂ '<' (List.Sublist.cons₂ '>' (List.nil_sublist rest))) hsub)

/-- The head surviving `dropWhile` fails the predicate. -/
theorem head?_dropWhile_not (p : Char → Bool) : ∀ (l : List Char) (c : Char),
    (l.dropWhile p).head? = some c → p c = false := by
  intro l
  induction l with
  | nil => intro c hc; simp at hc
  | cons x r ih =>
      intro c hc
      rw [List.dropWhile_cons] at hc
      split at hc
      · exact ih c hc
      · rw [List.head?_cons, Option.some.injEq] at hc
        subst hc
        simp_all

/-- `dropWhile` is the identity when the head already fails the
predicate. -/
theorem dropWhile_head_false (p : Char → Bool) (l : List Char)
    (h : ∀ c, l.head? = some c → p c = false) : l.dropWhile p = l := by
  cases l with
  | nil => rfl
  | cons x r => rw [List.dropWhile_cons, if_neg (by simp [h x rfl])]

/-- The strip result together with the whitespace suffix it removed. -/
theorem pyStrip_decomp (l : List Char) :
    l.dropWhile pyIsSpace =
      pyStrip l ++ ((l.dropWhile pyIsSpace).reverse.takeWhile pyIsSpace).reverse := by
  unfold pyStrip
  conv_lhs => rw [← List.reverse_reverse (l.dropWhile pyIsSpace),
    ← List.takeWhile_append_dropWhile pyIsSpace (l.dropWhile pyIsSpace).reverse]
  rw [List.reverse_append]

/-- Stripping twice is stripping once. -/
theorem pyStrip_idem (l : List Char) : pyStrip (pyStrip l) = pyStrip l := by
  have hdecomp := pyStrip_decomp l
  have hd1 : (pyStrip l).dropWhile pyIsSpace = pyStrip l := by
    apply dropWhile_head_false
    intro c hc
    have hne : pyStrip l ≠ [] := by
      intro he
      rw [he] at hc
      simp at hc
    have hhead : (l.dropWhile pyIsSpace).head? = some c := by
      rw [hdecomp, List.head?_append_of_ne_nil _ hne]
      exact hc
    exact head?_dropWhile_not pyIsSpace l c hhead
  have hBrev : (pyStrip l).reverse = (l.dropWhile pyIsSpace).reverse.dropWhile pyIsSpace := by
    unfold pyStrip
    rw [List.reverse_reverse]
  rw [show pyStrip (pyStrip l) =
      (((pyStrip l).dropWhile pyIsSpace).reverse.dropWhile pyIsSpace).reverse from rfl]
  rw [hd1, hBrev,
    dropWhile_head_false pyIsSpace _
      (fun c hc => head?_dropWhile_not pyIsSpace (l.dropWhile pyIsSpace).reverse c hc),
    ← hBrev, List.reverse_reverse]

/-- Stripping yields a subsequence. -/
theorem pyStrip_sublist (l : List Char) : (pyStrip l).Sublist l := by
  have h1 : (pyStrip l).Sublist (l.dropWhile pyIsSpace) := by
    rw [pyStrip_decomp l]
    exact List.sublist_append_left _ _
  exact h1.trans (List.dropWhile_sublist pyIsSpace)

/-- The strip removes an all-whitespace prefix and suffix. -/
theorem pyStrip_parts (l : List Char) :
    ∃ u w, l = u ++ pyStrip l ++ w ∧ (∀ c ∈ u, pyIsSpace c = true) ∧
      (∀ c ∈ w, pyIsSpace c = true) := by
  refine ⟨l.takeWhile pyIsSpace,
    ((l.dropWhile pyIsSpace).reverse.takeWhile pyIsSpace).reverse, ?_, ?_, ?_⟩
  · rw [List.append_assoc, ← pyStrip_decomp l, List.takeWhile_append_dropWhile]
  · intro c hc
    exact List.mem_takeWhile_imp hc
  · intro c hc
    rw [List.mem_reverse] at hc
    exact List.mem_takeWhile_imp hc

/-- On an all-whitespace list the checker bound applies to the running
count. -/
theorem chk_ws_le : ∀ (m : List Char) (n : Nat), (∀ c ∈ m, pyIsSpace c = true) →
    chkRun n m = true → n ≤ 2 := by
  intro m
  induction m with
  | nil => intro n _ h; simpa [chkRun] using h
  | cons c r ih =>
      intro n hws h
      rw [chkRun] at h
      by_cases h1 : c = '\n'
      · rw [if_pos h1] at h
        have h2 : ¬ 2 ≤ n := by
          intro hc
          rw [if_pos hc] at h
          exact absurd h (by simp)
        omega
      · rw [if_neg h1, if_pos (hws c (by simp))] at h
        exact ih n (fun a ha => hws a (List.mem_cons_of_mem _ ha)) h

/-- Scanning an all-whitespace prefix adds its newline count to the
checker state. -/
theorem chk_ws_append : ∀ (m : List Char) (n : Nat) (rest : List Char),
    (∀ c ∈ m, pyIsSpace c = true) → chkRun n (m ++ rest) = true →
    chkRun (n + m.count '\n') rest = true := by
  intro m
  induction m with
  | nil => intro n rest _ h; simpa using h
  | cons c r ih =>
      intro n rest hws h
      rw [List.cons_append, chkRun] at h
      by_cases h1 : c = '\n'
      · rw [if_pos h1] at h
        have h2 : ¬ 2 ≤ n := by
          intro hc
          rw [if_pos hc] at h
          exact absurd h (by simp)
        rw [if_neg h2] at h
        subst h1
        have harith : n + ('\n' :: r).count '\n' = n + 1 + r.count '\n' := by
          rw [List.count_cons]
          simp
          omega
        rw [harith]
        exact ih (n + 1) rest (fun a ha => hws a (List.mem_cons_of_mem _ ha)) h
      · rw [if_neg h1, if_pos (hws c (by simp))] at h
        have harith : n + (c :: r).count '\n' = n + r.count '\n' := by
          rw [List.count_cons]
          simp [h1]
        rw [harith]
        exact ih n rest (fun a ha => hws a (List.mem_cons_of_mem _ ha)) h

/-- Conversely, a passing checker state can be pushed back across an
all-whitespace prefix whose newlines it already accounts for. -/
theorem chk_ws_build : ∀ (m : List Char) (n : Nat) (rest : List Char),
    (∀ c ∈ m, pyIsSpace c = true) → n + m.count '\n' ≤ 2 →
    chkRun (n + m.count '\n') rest = true → chkRun n (m ++ rest) = true := by
  intro m
  induction m with
  | nil => intro n rest _ _ h; simpa using h
  | cons c r ih =>
      intro n rest hws hle h
      rw [List.cons_append, chkRun]
      by_cases h1 : c = '\n'
      · subst h1
        have hcnt : ('\n' :: r).count '\n' = r.count '\n' + 1 := by
          rw [List.count_cons]
          simp
        rw [hcnt] at hle h
        rw [if_pos rfl, if_neg (by omega)]
        refine ih (n + 1) rest (fun a ha => hws a (List.mem_cons_of_mem _ ha)) (by omega) ?_
        rw [show n + 1 + r.count '\n' = n + (r.count '\n' + 1) by omega]
        exact h
      · have hcnt : (c :: r).count '\n' = r.count '\n' := by
          rw [List.count_cons]
          simp [h1]
        rw [hcnt] at hle h
        rw [if_neg h1, if_pos (hws c (by simp))]
        exact ih n rest (fun a ha => hws a (List.mem_cons_of_mem _ ha)) hle h

/-- The checker is monotone: lowering the running count preserves
success. -/
theorem chk_mono : ∀ (l : List Char) (n k : Nat),
    chkRun n l = true → k ≤ n → chkRun k l = true := by
  intro l
  induction l with
  | nil =>
      intro n k h hk
      simp only [chkRun, decide_eq_true_eq] at h ⊢
      omega
  | cons c r ih =>
      intro n k h hk
      rw [chkRun] at h ⊢
      by_cases h1 : c = '\n'
      · rw [if_pos h1] at h ⊢
        have h2 : ¬ 2 ≤ n := by
          intro hc
          rw [if_pos hc] at h
          exact absurd h (by simp)
        rw [if_neg h2] at h
        rw [if_neg (by omega)]
        exact ih (n + 1) (k + 1) h (by omega)
      · rw [if_neg h1] at h ⊢
        by_cases h2 : pyIsSpace c = true
        · rw [if_pos h2] at h ⊢
          exact ih n k h hk
        · rw [if_neg h2] at h ⊢
          exact h

/-- A trailing all-whitespace suffix can be dropped from a passing
checker run. -/
theorem chk_drop_ws_suffix : ∀ (a : List Char) (n : Nat) (m : List Char),
    (∀ c ∈ m, pyIsSpace c = true) → chkRun n (a ++ m) = true →
    chkRun n a = true := by
  intro a
  induction a with
  | nil =>
      intro n m hws h
      simp only [List.nil_append] at h
      have := chk_ws_le m n hws h
      simp [chkRun]
      omega
  | cons c r ih =>
      intro n m hws h
      rw [List.cons_append, chkRun] at h
      rw [chkRun]
      by_cases h1 : c = '\n'
      · rw [if_pos h1] at h ⊢
        have h2 : ¬ 2 ≤ n := by
          intro hc
          rw [if_pos hc] at h
          exact absurd h (by simp)
        rw [if_neg h2] at h ⊢
        exact ih (n + 1) m hws h
      · rw [if_neg h1] at h ⊢
        by_cases h2 : pyIsSpace c = true
        · rw [if_pos h2] at h ⊢
          exact ih n m hws h
        · rw [if_neg h2] at h ⊢
          exact ih 0 m hws h

/-- Stripping preserves a passing checker run. -/
theorem chk_pyStrip (l : List Char) (h : chkRun 0 l = true) :
    chkRun 0 (pyStrip l) = true := by
  obtain ⟨u, w, hdec, hu, hw⟩ := pyStrip_parts l
  rw [hdec, List.append_assoc] at h
  have h1 := chk_ws_append u 0 _ hu h
  have h2 := chk_mono _ _ 0 h1 (Nat.zero_le _)
  exact chk_drop_ws_suffix (pyStrip l) 0 w hw h2

/-- When the checker passes, the blank-run collapse changes nothing: in
particular a pending run whose newline count is within bounds is flushed
verbatim. -/
theorem collapseGo_id : ∀ (l : List Char),
    (chkRun 0 l = true → collapseGo none l = l) ∧
    (∀ buf n, (∀ c ∈ buf, pyIsSpace c = true) → n = buf.count '\n' → n ≤ 2 →
      chkRun n l = true → collapseGo (some (buf, n)) l = buf.reverse ++ l) := by
  intro l
  induction l with
  | nil =>
      constructor
      · intro _; rfl
      · intro buf n _ _ hle _
        rw [collapseGo, if_neg (by omega)]
        simp
  | cons c r ih =>
      constructor
      · intro h
        rw [collapseGo]
        by_cases hnl : c = '\n'
        · rw [if_pos hnl]
          subst hnl
          rw [chkRun, if_pos rfl, if_neg (by omega)] at h
          rw [Nat.zero_add] at h
          rw [ih.2 ['\n'] 1 (by decide) (by decide) (by omega) h]
          simp
        · rw [if_neg hnl]
          have h' : chkRun 0 r = true := by
            rw [chkRun, if_neg hnl] at h
            split_ifs at h
            · exact h
            · exact h
          rw [ih.1 h']
      · intro buf n hws hn hle h
        rw [collapseGo]
        by_cases hnl : c = '\n'
        · rw [if_pos hnl]
          subst hnl
          by_cases h2 : 2 ≤ n
          · rw [chkRun, if_pos rfl, if_pos h2] at h
            exact absurd h (by simp)
          · rw [chkRun, if_pos rfl, if_neg h2] at h
            rw [ih.2 ('\n' :: buf) (n + 1)
              (fun a ha => by
                rcases List.mem_cons.1 ha with rfl | ha2
                · decide
                · exact hws a ha2)
              (by simp [List.count_cons, hn]) (by omega) h]
            simp
        · rw [if_neg hnl]
          by_cases hws2 : pyIsSpace c = true
          · rw [if_pos hws2]
            rw [chkRun, if_neg hnl, if_pos hws2] at h
            rw [ih.2 (c :: buf) n
              (fun a ha => by
                rcases List.mem_cons.1 ha with rfl | ha2
                · exact hws2
                · exact hws a ha2)
              (by simp [List.count_cons, hn, hnl]) hle h]
            simp
          · rw [if_neg hws2]
            rw [chkRun, if_neg hnl, if_neg hws2] at h
            rw [if_neg (by omega), ih.1 h]

/-- The blank-run collapse output passes the checker: no whitespace run
with three or more newlines survives. -/
theorem collapseGo_chk : ∀ (l : List Char),
    chkRun 0 (collapseGo none l) = true ∧
    (∀ buf n, (∀ c ∈ buf, pyIsSpace c = true) → n = buf.count '\n' →
      chkRun 0 (collapseGo (some (buf, n)) l) = true) := by
  intro l
  induction l with
  | nil =>
      constructor
      · decide
      · intro buf n hws hn
        rw [collapseGo]
        split_ifs with h3
        · decide
        · have hb := chk_ws_build buf.reverse 0 []
            (fun a ha => hws a (List.mem_reverse.1 ha))
            (by simp [List.count_reverse]; omega)
            (by simp [chkRun, List.count_reverse]; omega)
          simpa using hb
  | cons c r ih =>
      constructor
      · rw [collapseGo]
        by_cases hnl : c = '\n'
        · rw [if_pos hnl]
          subst hnl
          exact ih.2 ['\n'] 1 (by decide) (by decide)
        · rw [if_neg hnl, chkRun, if_neg hnl]
          split_ifs
          · exact ih.1
          · exact ih.1
      · intro buf n hws hn
        rw [collapseGo]
        by_cases hnl : c = '\n'
        · rw [if_pos hnl]
          subst hnl
          exact ih.2 ('\n' :: buf) (n + 1)
            (fun a ha => by
              rcases List.mem_cons.1 ha with rfl | ha2
              · decide
              · exact hws a ha2)
            (by simp [List.count_cons, hn])
        · rw [if_neg hnl]
          by_cases hws2 : pyIsSpace c = true
          · rw [if_pos hws2]
            exact ih.2 (c :: buf) n
              (fun a ha => by
                rcases List.mem_cons.1 ha with rfl | ha2
                · exact hws2
                · exact hws a ha2)
              (by simp [List.count_cons, hn, hnl])
          · rw [if_neg hws2]
            split_ifs with h3
            · show chkRun 0 ('\n' :: '\n' :: c :: collapseGo none r) = true
              rw [chkRun, if_pos rfl, if_neg (by omega), chkRun, if_pos rfl,
                if_neg (by omega), chkRun, if_neg hnl, if_neg hws2]
              exact ih.1
            · have hb := chk_ws_build buf.reverse 0 (c :: collapseGo none r)
                (fun a ha => hws a (List.mem_reverse.1 ha))
                (by rw [List.count_reverse]; omega) ?_
              · exact hb
              · rw [List.count_reverse, ← hn, Nat.zero_add, chkRun, if_neg hnl,
                  if_neg hws2]
                exact ih.1

/-- The blank-run collapse yields a subsequence: a flushed run is emitted
verbatim and a collapsed run keeps two of its newlines. -/
theorem collapseGo_sublist : ∀ (l : List Char),
    (collapseGo none l).Sublist l ∧
    (∀ buf n, n = buf.count '\n' →
      (collapseGo (some (buf, n)) l).Sublist (buf.reverse ++ l)) := by
  intro l
  induction l with
  | nil =>
      constructor
      · exact List.Sublist.refl _
      · intro buf n hn
        rw [collapseGo]
        split_ifs with h3
        · have h2 : (List.replicate 2 '\n').Sublist buf.reverse :=
            List.le_count_iff_replicate_sublist.1
              (by rw [List.count_reverse]; omega)
          simpa using h2
        · simp
  | cons c r ih =>
      constructor
      · rw [collapseGo]
        by_cases hnl : c = '\n'
        · rw [if_pos hnl]
          subst hnl
          have := ih.2 ['\n'] 1 (by decide)
          simpa using this
        · rw [if_neg hnl]
          exact List.Sublist.cons₂ c ih.1
      · intro buf n hn
        rw [collapseGo]
        by_cases hnl : c = '\n'
        · rw [if_pos hnl]
          subst hnl
          have := ih.2 ('\n' :: buf) (n + 1) (by simp [List.count_cons, hn])
          simpa [List.append_assoc] using this
        · rw [if_neg hnl]
          by_cases hws2 : pyIsSpace c = true
          · rw [if_pos hws2]
            have := ih.2 (c :: buf) n (by simp [List.count_cons, hn, hnl])
            simpa [List.append_assoc] using this
          · rw [if_neg hws2]
            split_ifs with h3
            · have h2 : (List.replicate 2 '\n').Sublist buf.reverse :=
                List.le_count_iff_replicate_sublist.1
                  (by rw [List.count_reverse]; omega)
              have := List.Sublist.append h2 (List.Sublist.cons₂ c ih.1)
              simpa using this
            · exact List.Sublist.append (List.Sublist.refl _)
                (List.Sublist.cons₂ c ih.1)

/-- The NBSP/ZWSP replacement only maps characters to themselves or to a
newline. -/
theorem nbspSub_mem (l : List Char) (c : Char) (h : c ∈ nbspSub l) :
    c ∈ l ∨ c = '\n' := by
  unfold nbspSub at h
  obtain ⟨a, ha, hfa⟩ := List.mem_map.1 h
  split_ifs at hfa
  · exact Or.inr hfa.symm
  · exact Or.inl (hfa ▸ ha)

/-- After the NBSP/ZWSP replacement neither character remains. -/
theorem nbspSub_no (l : List Char) : ∀ c ∈ nbspSub l, c ≠ '\xa0' ∧ c ≠ '​' := by
  intro c h
  unfold nbspSub at h
  obtain ⟨a, _, hfa⟩ := List.mem_map.1 h
  split_ifs at hfa with hcond
  · subst hfa
    exact ⟨by decide, by decide⟩
  · subst hfa
    simp only [Bool.or_eq_true, decide_eq_true_eq] at hcond
    push_neg at hcond
    exact ⟨hcond.1, hcond.2⟩

/-- The normalized text is tag-free: the second-pass unwrap removes every
tag shape and the later stages cannot recreate one. -/
theorem clean_filing_noTag (l : List Char) : noTag (clean_filing_text l) := by
  unfold clean_filing_text collapseBlank
  exact noTag_sublist (pyStrip_sublist _)
    (noTag_sublist (collapseGo_sublist _).1
      (noTag_sublist (pyStrip_sublist _)
        (noTag_nbspSub _ (muSub_noTag _))))

/-- Normalization introduces no ampersand. -/
theorem clean_filing_no_amp (l : List Char) (h : '&' ∉ l) :
    '&' ∉ clean_filing_text l := by
  have hmu : '&' ∉ mu1Sub l := by
    intro hm
    rcases mu1Sub_mem l '&' hm with h2 | h2
    · exact h h2
    · exact absurd h2 (by decide)
  intro hm
  unfold clean_filing_text collapseBlank at hm
  have hm1 := (pyStrip_sublist _).subset hm
  have hm2 := (collapseGo_sublist _).1.subset hm1
  have hm3 := (pyStrip_sublist _).subset hm2
  rcases nbspSub_mem _ '&' hm3 with hm4 | hm4
  · rcases muSub_mem _ '&' hm4 with hm5 | hm5
    · rcases tab1Go_mem none _ '&' hm5 with hm6 | hm6 | hm6
      · rw [unescape_id _ hmu] at hm6
        exact hmu hm6
      · rcases hm6 with ⟨buf, hbuf, _⟩
        exact absurd hbuf (by simp)
      · exact absurd hm6 (by decide)
    · exact absurd hm5 (by decide)
  · exact absurd hm4 (by decide)

/-- Normalized text contains neither NBSP nor ZWSP. -/
theorem clean_filing_no_nbsp (l : List Char) :
    ∀ c ∈ clean_filing_text l, c ≠ '\xa0' ∧ c ≠ '​' := by
  intro c hm
  unfold clean_filing_text collapseBlank at hm
  have hm1 := (pyStrip_sublist _).subset hm
  have hm2 := (collapseGo_sublist _).1.subset hm1
  have hm3 := (pyStrip_sublist _).subset hm2
  exact nbspSub_no _ c hm3

/-- Normalized text is already stripped. -/
theorem clean_filing_strip (l : List Char) :
    pyStrip (clean_filing_text l) = clean_filing_text l := by
  unfold clean_filing_text
  exact pyStrip_idem _

/-- Normalized text passes the blank-run checker. -/
theorem clean_filing_chk (l : List Char) :
    chkRun 0 (clean_filing_text l) = true := by
  unfold clean_filing_text collapseBlank
  exact chk_pyStrip _ (collapseGo_chk _).1

/-- Normalized text has no blank run left to collapse. -/
theorem clean_filing_collapse (l : List Char) :
    collapseBlank (clean_filing_text l) = clean_filing_text l :=
  (collapseGo_id _).1 (clean_filing_chk l)

/-- C4 (counterexample): the normalizer is not idempotent.  The input
`a&amp;lt;b` decodes once to `a&lt;b`; renormalizing decodes the exposed
entity again to `a<b`. -/
theorem clean_filing_not_idempotent_cex :
    clean_filing_text "a&amp;lt;b".data = "a&lt;b".data ∧
    clean_filing_text (clean_filing_text "a&amp;lt;b".data) = "a<b".data ∧
    clean_filing_text (clean_filing_text "a&amp;lt;b".data) ≠
      clean_filing_text "a&amp;lt;b".data :=
  ⟨by decide, by decide, by decide⟩

/-- C4 (amended): the normalizer is idempotent on every input containing
no ampersand (so in particular no doubly-encoded character entity): each
stage of the second pass is the identity on the first pass's output. -/
theorem clean_filing_idempotent_no_amp (l : List Char) (h : '&' ∉ l) :
    clean_filing_text (clean_filing_text l) = clean_filing_text l := by
  have hT : noTag (clean_filing_text l) := clean_filing_noTag l
  have hA : '&' ∉ clean_filing_text l := clean_filing_no_amp l h
  have hN := clean_filing_no_nbsp l
  show pyStrip (collapseBlank (pyStrip (nbspSub (muSub (tab1Sub (unescape
    (mu1Sub (clean_filing_text l)))))))) = clean_filing_text l
  have hm : mu1Sub (clean_filing_text l) = clean_filing_text l := by
    unfold mu1Sub
    rw [pSub_id _ hT, brSub_id _ hT, divSub_id _ hT]
  rw [hm, unescape_id _ hA, tab1Sub_id _ hT, muSub_id _ hT, nbspSub_id _ hN,
    clean_filing_strip l, clean_filing_collapse l, clean_filing_strip l]

/-- Witness for C4 (amended): an ampersand-free input with markup noise. -/
theorem clean_filing_idempotent_no_amp_witness :
    '&' ∉ "hello  <unclosed world".data ∧
    clean_filing_text (clean_filing_text "hello  <unclosed world".data) =
      clean_filing_text "hello  <unclosed world".data :=
  ⟨by decide, clean_filing_idempotent_no_amp _ (by decide)⟩
